import Mathlib

/-!
# Verification of the content-relatedness and summary-merging core

Shallow embedding of `src/lib/content-analyzer.ts` (the content-relatedness
detection and summary-merging engine): `extractKeywords`,
`calculateTermFrequency`, `calculateSimilarity`, `areRelated` and
`mergeSummaries`, together with proofs of the specification claims about them.

Modelling conventions:
* JavaScript strings are modelled by `String` / `List Char`; the ASCII-relevant
  behaviour of `toLowerCase`, the regex classes `\w` and `\s`, `trim`,
  `split`, `includes` and the two regexes used by the merger are modelled
  character by character.
* JavaScript numbers are modelled by `ℚ` (every quantity the core divides is a
  small integer ratio, and only order comparisons are made downstream).
  The quotient is written with `mkRat`; `simScore_eq_div` proves it equal to
  the field division of the two counts.
* `Map` (insertion ordered) is modelled by an association list, `Set`
  (insertion ordered) by a duplicate-free list.
-/

namespace CA

/-- Model of the JavaScript whitespace class `\s` (ASCII whitespace plus the
BMP Unicode space characters it includes). -/
def jsIsSpace (c : Char) : Bool :=
  c == ' ' || c == '\t' || c == '\n' || c == '\r' ||
  c.toNat == 11 || c.toNat == 12 || c.toNat == 0xa0 || c.toNat == 0x1680 ||
  (0x2000 ≤ c.toNat && c.toNat ≤ 0x200a) || c.toNat == 0x2028 ||
  c.toNat == 0x2029 || c.toNat == 0x202f || c.toNat == 0x205f ||
  c.toNat == 0x3000 || c.toNat == 0xfeff

/-- The JavaScript regex word class `\w`, that is `[A-Za-z0-9_]`. -/
def jsWordChar (c : Char) : Bool :=
  (65 ≤ c.toNat && c.toNat ≤ 90) || (97 ≤ c.toNat && c.toNat ≤ 122) ||
  (48 ≤ c.toNat && c.toNat ≤ 57) || c == '_'

/-- ASCII model of `String.prototype.toLowerCase` on one character. -/
def lowerChar (c : Char) : Char :=
  if 65 ≤ c.toNat ∧ c.toNat ≤ 90 then Char.ofNat (c.toNat + 32) else c

/-- `text.toLowerCase().replace(/[^\w\s]/g, "")` from `extractKeywords`:
lowercase every character, then delete each character that is neither a word
character nor whitespace. -/
def cleanData (text : String) : List Char :=
  (text.data.map lowerChar).filter (fun c => jsWordChar c || jsIsSpace c)

/-- `cleanText.split(/\s+/)`, modelled as the list of maximal runs of
non-whitespace characters.  (The JavaScript split may also produce empty
boundary strings; those are dropped by the `length > 2` filter below, so the
keyword list is unchanged.)  `acc` holds the current run, reversed. -/
def splitWsAux (acc : List Char) : List Char → List (List Char)
  | [] => if acc.isEmpty then [] else [acc.reverse]
  | c :: rest =>
    if jsIsSpace c then
      if acc.isEmpty then splitWsAux [] rest else acc.reverse :: splitWsAux [] rest
    else splitWsAux (c :: acc) rest

/-- The stop-word set of `extractKeywords`, verbatim from the source. -/
def stopWords : List String :=
  ["a", "an", "the", "and", "or", "but", "is", "are", "was", "were", "be",
   "been", "being", "in", "on", "at", "to", "for", "with", "by", "about",
   "against", "between", "into", "through", "during", "before", "after",
   "above", "below", "from", "up", "down", "of", "off", "over", "under",
   "again", "further", "then", "once", "here", "there", "when", "where",
   "why", "how", "all", "any", "both", "each", "few", "more", "most",
   "other", "some", "such", "no", "nor", "not", "only", "own", "same",
   "so", "than", "too", "very", "s", "t", "can", "will", "just", "don",
   "should", "now", "this", "that"]

/-- `extractKeywords` from the source: normalize, split, then keep words of
length `> 2` that are not stop words. -/
def extractKeywords (text : String) : List String :=
  let words := (splitWsAux [] (cleanData text)).map String.mk
  words.filter (fun word => word.length > 2 && !stopWords.contains word)

/-- One step of `calculateTermFrequency`:
`termFreq.set(word, (termFreq.get(word) || 0) + 1)` on an insertion-ordered
map. -/
def tfStep (m : List (String × Nat)) (w : String) : List (String × Nat) :=
  if m.any (fun p => p.1 == w) then
    m.map (fun p => if p.1 == w then (p.1, p.2 + 1) else p)
  else m ++ [(w, 1)]

/-- `calculateTermFrequency` from the source. -/
def calculateTermFrequency (keywords : List String) : List (String × Nat) :=
  keywords.foldl tfStep []

/-- `termFreq.has(term)`. -/
def tfHas (m : List (String × Nat)) (w : String) : Bool :=
  m.any (fun p => p.1 == w)

/-- `termFreq.keys()` in insertion order. -/
def tfKeys (m : List (String × Nat)) : List String := m.map Prod.fst

/-- Adding one element to a JavaScript `Set` (insertion ordered, no
duplicates). -/
def jsSetAdd (l : List String) (w : String) : List String :=
  if l.contains w then l else l ++ [w]

/-- `new Set([...])` built from a list, keeping first occurrences in order. -/
def jsSetOfList (l : List String) : List String := l.foldl jsSetAdd []

/-- The final ratio `commonTerms / totalUniqueTerms` of `calculateSimilarity`
(`0` when the union of terms is empty).  Written with `mkRat`, which agrees
with field division of the casts (`simScore_eq_div`). -/
def simScore (commonTerms totalUniqueTerms : Nat) : ℚ :=
  if 0 < totalUniqueTerms then mkRat commonTerms totalUniqueTerms else 0

/-- `calculateSimilarity` from the source: Jaccard coefficient over the key
sets of the two term-frequency maps.  The source counts `commonTerms` with a
loop over `allTerms`; this is the length of the corresponding filter. -/
def calculateSimilarity (text1 text2 : String) : ℚ :=
  let tf1 := calculateTermFrequency (extractKeywords text1)
  let tf2 := calculateTermFrequency (extractKeywords text2)
  let allTerms := jsSetOfList (tfKeys tf1 ++ tfKeys tf2)
  let commonTerms := (allTerms.filter (fun t => tfHas tf1 t && tfHas tf2 t)).length
  simScore commonTerms allTerms.length

/-- The double loop of `areRelated`: for every pair `i < j`, test whether the
similarity of the two summaries reaches the threshold. -/
def pairwiseRelated (threshold : ℚ) : List String → Bool
  | [] => false
  | s :: rest =>
    rest.any (fun s2 => decide (calculateSimilarity s s2 ≥ threshold)) ||
    pairwiseRelated threshold rest

/-- `areRelated` from the source (default threshold 0.15 = `mkRat 15 100`). -/
def areRelated (summaries : List String) (threshold : ℚ := mkRat 15 100) : Bool :=
  if summaries.length ≤ 1 then false
  else pairwiseRelated threshold summaries

/-! ## The summary merger

`mergeSummaries` parses each summary with two regexes and a paragraph split,
then assembles a Markdown document.  The regexes are modelled exactly.  The
ECMAScript `.` (without the `s` flag) matches any character except a line
terminator — LF, CR, U+2028 or U+2029 — so:

* overview: `summary.match(/(?:^|\n\n)(.*?)(?:\n\n|$)/)` — first match; the
  lazy group is a run of characters containing no line terminator, terminated
  by a literal blank line (two LFs) or the end of the string;
* bullets: `summary.match(/\* (.*?)(?:\n|$)/g)` — a match starts at `"* "`
  (anywhere in a line), its group runs over non-line-terminator characters and
  must be closed by an LF (consumed into the match) or the end of the string.
  When the group instead runs into a CR/LS/PS the attempt fails, and so does
  every attempt at a `"* "` inside the failed capture (their groups end at the
  same blocking terminator), so scanning resumes after that terminator.
-/

/-- The ECMAScript LineTerminator class: LF, CR, U+2028, U+2029 — exactly the
characters the dot of a regex cannot match. -/
def jsLineTerm (c : Char) : Bool :=
  c == '\n' || c == '\r' || c.toNat == 0x2028 || c.toNat == 0x2029

/-- Does the remainder after the candidate paragraph let the overview regex
terminate, i.e. is it the end of the string or a blank line (`\n\n`)? -/
def blankOrEnd : List Char → Bool
  | [] => true
  | [_] => false
  | c :: d :: _ => c == '\n' && d == '\n'

/-- The run of non-line-terminator characters starting at offset `i`: the
only text the lazy group `(.*?)` can produce at that position. -/
def runAt (l : List Char) (i : Nat) : List Char :=
  (l.drop i).takeWhile (fun c => !jsLineTerm c)

/-- Does the overview regex match when its group starts at offset `i`?
(The group is `runAt l i` and must be followed by `\n\n` or the end.) -/
def qualAt (l : List Char) (i : Nat) : Bool :=
  blankOrEnd ((l.drop i).dropWhile (fun c => !jsLineTerm c))

/-- Matching `(.*?)(?:\n\n|$)` at the start of `m`; returns the group. -/
def grabPara (m : List Char) : Option (List Char) :=
  if qualAt m 0 then some (runAt m 0) else none

/-- Scanning for the `\n\n` alternative of `(?:^|\n\n)` at successive start
positions, as the regex engine does after `^` has failed; on failure moves one
character forward. -/
def scanBlank : List Char → Option (List Char)
  | [] => none
  | [_] => none
  | c :: d :: rest =>
    if c = '\n' ∧ d = '\n' then
      match grabPara rest with
      | some p => some p
      | none => scanBlank (d :: rest)
    else scanBlank (d :: rest)

/-- Group 1 of the first match of `/(?:^|\n\n)(.*?)(?:\n\n|$)/`, or `none`
when the regex does not match at all. -/
def ovGroup (l : List Char) : Option (List Char) :=
  match grabPara l with
  | some p => some p
  | none => scanBlank l

/-- The overview fragments `allOverviews` collected by `mergeSummaries`: the
match group of each summary, pushed only when the match exists and the group
is non-empty (`if (overviewMatch && overviewMatch[1])`). -/
def collectOverviews (summaries : List String) : List String :=
  summaries.flatMap fun s =>
    match ovGroup s.data with
    | some p => if p.isEmpty then [] else [String.mk p]
    | none => []

/-- All matches of `/\* (.*?)(?:\n|$)/g`.  In state `some acc` the automaton
is inside an attempted match whose group so far is `acc` (reversed); an LF
closes the match (and is part of the matched text), the end of the string
closes it without the LF, and any other line terminator (CR, LS, PS) makes
the attempt fail — every `"* "` inside the dropped capture would fail at the
same terminator, so scanning resumes right after it. -/
def scanBulletsAux : Option (List Char) → List Char → List (List Char)
  | some acc, [] => ['*' :: ' ' :: acc.reverse]
  | some acc, c :: rest =>
    if c = '\n' then ('*' :: ' ' :: (acc.reverse ++ ['\n'])) :: scanBulletsAux none rest
    else if jsLineTerm c then scanBulletsAux none rest
    else scanBulletsAux (some (c :: acc)) rest
  | none, [] => []
  | none, [_] => []
  | none, c :: d :: rest =>
    if c = '*' ∧ d = ' ' then scanBulletsAux (some []) rest
    else scanBulletsAux none (d :: rest)

/-- `String.prototype.trim`: drop whitespace from both ends (trailing side
first; the order is immaterial). -/
def trimChars (l : List Char) : List Char :=
  (((l.reverse).dropWhile jsIsSpace).reverse).dropWhile jsIsSpace

/-- The bullet fragments `allPoints` collected by `mergeSummaries`: every
regex match, trimmed, across all summaries in order. -/
def collectPoints (summaries : List String) : List String :=
  summaries.flatMap fun s =>
    (scanBulletsAux none s.data).map (fun m => String.mk (trimChars m))

/-- `summary.split("\n\n")` (literal split, empty pieces kept); `acc` holds
the current piece, reversed. -/
def splitBlankAux (acc : List Char) : List Char → List (List Char)
  | [] => [acc.reverse]
  | [c] => [(c :: acc).reverse]
  | c :: d :: rest =>
    if c = '\n' ∧ d = '\n' then acc.reverse :: splitBlankAux [] rest
    else splitBlankAux (c :: acc) (d :: rest)

/-- Leading-character test used by the conclusion scan
(`para.trim().startsWith("*")`). -/
def headIsStar : List Char → Bool
  | '*' :: _ => true
  | _ => false

/-- The conclusion fragments `allConclusions`: from each summary, the first of
its last two paragraphs that does not start (after trimming) with `*` and has
length `> 10`; at most one per summary. -/
def collectConclusions (summaries : List String) : List String :=
  summaries.flatMap fun s =>
    let paragraphs := (splitBlankAux [] s.data).map String.mk
    let lastParagraphs := paragraphs.drop (paragraphs.length - 2)
    match lastParagraphs.find?
        (fun para => !headIsStar (trimChars para.data) && para.length > 10) with
    | some para => [para]
    | none => []

/-- Stable insertion into a list sorted by length, descending: the element
goes before the first entry that is not longer.  Folding this over the list
from the right is a stable sort — the semantics `Array.prototype.sort` (which
is stable) gives the comparator `(a, b) => b.length - a.length`. -/
def insLenDesc (x : String) : List String → List String
  | [] => [x]
  | y :: ys => if y.length ≤ x.length then x :: y :: ys else y :: insLenDesc x ys

/-- `arr.sort((a, b) => b.length - a.length)`. -/
def sortLenDesc (l : List String) : List String := l.foldr insLenDesc []

/-- Substring containment on character lists: is the first argument a prefix
of the second? -/
def hasPre : List Char → List Char → Bool
  | [], _ => true
  | _ :: _, [] => false
  | a :: su, b :: s => a == b && hasPre su s

/-- `s.includes(sub)` scanning: does `sub` occur (as a prefix of some suffix)
in the second argument? -/
def inclSub (sub : List Char) : List Char → Bool
  | [] => hasPre sub []
  | c :: rest => hasPre sub (c :: rest) || inclSub sub rest

/-- JavaScript `s.includes(sub)` on strings. -/
def containsStr (s sub : String) : Bool := inclSub sub.data s.data

/-- `point.split(" ")` — split on every single space, keeping empty pieces. -/
def splitSpaceAux (acc : List Char) : List Char → List (List Char)
  | [] => [acc.reverse]
  | c :: rest =>
    if c = ' ' then acc.reverse :: splitSpaceAux [] rest
    else splitSpaceAux (c :: acc) rest

/-- `point.split(" ").slice(0, 5).join(" ").toLowerCase()` — the first-five-
words lowercased comparison key of the deduplication loop. -/
def firstFiveWords (point : String) : String :=
  String.mk ((((splitSpaceAux [] point.data).take 5).intersperse [' ']).flatten.map lowerChar)

/-- One step of the deduplication loop of `mergeSummaries`: the candidate is a
duplicate iff its key and some accepted point's key contain one another (in
either direction); otherwise it is appended. -/
def dedupStep (uniquePoints : List String) (point : String) : List String :=
  let firstWords := firstFiveWords point
  let isDuplicate := uniquePoints.any fun existingPoint =>
    containsStr (firstFiveWords existingPoint) firstWords ||
    containsStr firstWords (firstFiveWords existingPoint)
  if isDuplicate then uniquePoints else uniquePoints ++ [point]

/-- The full deduplication pass over `allPoints`, in collection order. -/
def dedupPoints (allPoints : List String) : List String :=
  allPoints.foldl dedupStep []

/-- The numbered `Videos Analyzed` list: `1. title` per line, input order. -/
def numberTitles (titles : List String) : String :=
  String.join (titles.enum.map fun p => Nat.repr (p.1 + 1) ++ ". " ++ p.2 ++ "\n")

/-- `mergeSummaries` from the source: collect fragments, then assemble the
Markdown document section by section. -/
def mergeSummaries (summaries titles : List String) : String :=
  let allOverviews := collectOverviews summaries
  let allPoints := collectPoints summaries
  let allConclusions := collectConclusions summaries
  let uniquePoints := dedupPoints allPoints
  "# Combined Summary of Related Videos\n\n" ++
  "## Videos Analyzed\n\n" ++
  numberTitles titles ++
  "\n## Overview\n\n" ++
  (if allOverviews.length > 0 then (sortLenDesc allOverviews).headD "" ++ "\n\n"
   else "These videos discuss related topics.\n\n") ++
  "## Key Points From All Videos\n\n" ++
  String.join (uniquePoints.map fun point => point ++ "\n") ++
  "\n## Overall Conclusion\n\n" ++
  (if allConclusions.length > 0 then (sortLenDesc allConclusions).headD "" ++ "\n"
   else "These videos cover related content and should be considered together for a comprehensive understanding of the topic.\n")

/-! ## Specification-side definitions

Independent formulations used to state the claims (they are *compared* with
the source-side definitions above, never used by them). -/

/-- Number of occurrences of `sub` in a character list (all start positions
counted). -/
def occCount (sub : List Char) : List Char → Nat
  | [] => if hasPre sub [] then 1 else 0
  | c :: rest => (if hasPre sub (c :: rest) then 1 else 0) + occCount sub rest

/-- Candidate start offsets of the overview group: offset `0` (the `^`
alternative) or any offset immediately after two consecutive newlines (the
`\n\n` alternative). -/
def candAt (l : List Char) (i : Nat) : Bool :=
  i == 0 || (decide (2 ≤ i) && hasPre ['\n', '\n'] (l.drop (i - 2)))

/-- Offset `i` yields an overview match: it is a candidate start and its
run of non-line-terminator characters is terminated by a blank line or the
end of the string. -/
def c6Cand (l : List Char) (i : Nat) : Bool := candAt l i && qualAt l i

/-- Declarative description of the overview extraction: the result is the
group at the least matching candidate offset, and `none` iff no offset
matches. -/
def c6FirstGroup (l : List Char) (r : Option (List Char)) : Prop :=
  match r with
  | some g => ∃ i, c6Cand l i = true ∧ g = runAt l i ∧ ∀ j, j < i → c6Cand l j = false
  | none => ∀ i, c6Cand l i = false

/-- First element of maximal length (ties resolved to the earliest), the
selection rule the spec gives for the Overview and Conclusion sections. -/
def firstMaxLen : List String → Option String
  | [] => none
  | a :: rest =>
    match firstMaxLen rest with
    | none => some a
    | some m => if a.length < m.length then some m else some a

/-- The spec's duplicate relation between a candidate bullet and an accepted
one: one first-five-words key contains the other. -/
def prefRelated (cand q : String) : Prop :=
  containsStr (firstFiveWords q) (firstFiveWords cand) = true ∨
  containsStr (firstFiveWords cand) (firstFiveWords q) = true

instance (p q : String) : Decidable (prefRelated p q) := by
  unfold prefRelated
  infer_instance

/-- The deduplication pass exactly as the spec words it: discard the
candidate iff some already-accepted bullet is `prefRelated` to it. -/
def c5SpecStep (accepted : List String) (cand : String) : List String :=
  if ∃ q ∈ accepted, prefRelated cand q then accepted else accepted ++ [cand]

/-- Split into lines at every newline (the newlines are not part of any
line); `acc` holds the current line, reversed. -/
def splitLinesAux (acc : List Char) : List Char → List (List Char)
  | [] => [acc.reverse]
  | c :: rest =>
    if c = '\n' then acc.reverse :: splitLinesAux [] rest
    else splitLinesAux (c :: acc) rest

/-- The suffix of a line starting at its first occurrence of `"* "`, if
any. -/
def lineBullet : List Char → Option (List Char)
  | [] => none
  | [_] => none
  | c :: d :: rest =>
    if c = '*' ∧ d = ' ' then some (c :: d :: rest) else lineBullet (d :: rest)

/-- Claim C7 as stated: only lines *beginning* with `"* "`, verbatim. -/
def c7LineLead (summaries : List String) : List String :=
  summaries.flatMap fun s =>
    (splitLinesAux [] s.data).filterMap fun line =>
      if hasPre ['*', ' '] line then some (String.mk line) else none

/-- Split at every line terminator (LF, CR, U+2028, U+2029) into segments of
terminator-free text; each segment is paired with `true` when it is closed by
an LF or by the end of the string (the only closings the bullet regex
accepts) and with `false` when it is closed by CR/LS/PS.  `acc` holds the
current segment, reversed. -/
def splitTermsAux (acc : List Char) : List Char → List (List Char × Bool)
  | [] => [(acc.reverse, true)]
  | c :: rest =>
    if c = '\n' then (acc.reverse, true) :: splitTermsAux [] rest
    else if jsLineTerm c then (acc.reverse, false) :: splitTermsAux [] rest
    else splitTermsAux (c :: acc) rest

/-- Amended C7, segment-based formulation: the text splits at every line
terminator; a segment contributes a bullet iff it is closed by an LF or by
the end of the string and contains `"* "`; the bullet runs from the
segment's first `"* "` to the segment's end and is then trimmed.  Segments
closed by CR/LS/PS (every line of a CRLF document) contribute nothing. -/
def c7TextBullets (s : String) : List String :=
  ((splitTermsAux [] s.data).filterMap fun seg =>
    if seg.2 then lineBullet seg.1 else none).map fun m => String.mk (trimChars m)

/-- ASCII lowercase letter. -/
def isLowerAlpha (c : Char) : Bool := 97 ≤ c.toNat && c.toNat ≤ 122

/-- ASCII digit. -/
def isDigitCh (c : Char) : Bool := 48 ≤ c.toNat && c.toNat ≤ 57

/-! ## Basic facts about the similarity score -/

theorem simScore_eq_div (c t : Nat) :
    simScore c t = if 0 < t then (c : ℚ) / (t : ℚ) else 0 := by
  unfold simScore
  split
  · rw [Rat.mkRat_eq_div]
    push_cast
    rfl
  · rfl

theorem simScore_nonneg (c t : Nat) : 0 ≤ simScore c t := by
  rw [simScore_eq_div]
  split
  · positivity
  · exact le_refl 0

theorem simScore_le_one (c t : Nat) (h : c ≤ t) : simScore c t ≤ 1 := by
  rw [simScore_eq_div]
  split
  case isTrue ht =>
    rw [div_le_one (by exact_mod_cast ht)]
    exact_mod_cast h
  case isFalse => exact zero_le_one

theorem calculateSimilarity_nonneg (a b : String) : 0 ≤ calculateSimilarity a b := by
  unfold calculateSimilarity
  exact simScore_nonneg _ _

theorem calculateSimilarity_le_one (a b : String) : calculateSimilarity a b ≤ 1 := by
  unfold calculateSimilarity
  exact simScore_le_one _ _ (List.length_filter_le _ _)

/-! ## The insertion-ordered set model -/

theorem jsSetAdd_mem (acc : List String) (x a : String) :
    a ∈ jsSetAdd acc x ↔ a ∈ acc ∨ a = x := by
  unfold jsSetAdd
  split
  case isTrue h =>
    have hx : x ∈ acc := List.elem_iff.mp h
    constructor
    · exact Or.inl
    · rintro (ha | rfl)
      · exact ha
      · exact hx
  case isFalse h => simp

theorem jsSetAdd_nodup (acc : List String) (x : String) (h : acc.Nodup) :
    (jsSetAdd acc x).Nodup := by
  unfold jsSetAdd
  split
  case isTrue => exact h
  case isFalse hc =>
    have hx : x ∉ acc := fun hmem => hc (List.elem_iff.mpr hmem)
    simp [List.nodup_append, h, hx]

theorem foldl_jsSetAdd_mem (l : List String) :
    ∀ (acc : List String) (a : String), a ∈ l.foldl jsSetAdd acc ↔ a ∈ acc ∨ a ∈ l := by
  induction l with
  | nil => simp
  | cons x rest ih =>
    intro acc a
    rw [List.foldl_cons, ih, jsSetAdd_mem]
    simp [or_assoc]

theorem foldl_jsSetAdd_nodup (l : List String) :
    ∀ acc : List String, acc.Nodup → (l.foldl jsSetAdd acc).Nodup := by
  induction l with
  | nil => exact fun acc h => h
  | cons x rest ih => exact fun acc h => ih _ (jsSetAdd_nodup acc x h)

theorem jsSetOfList_mem (l : List String) (a : String) :
    a ∈ jsSetOfList l ↔ a ∈ l := by
  unfold jsSetOfList
  rw [foldl_jsSetAdd_mem]
  simp

theorem jsSetOfList_nodup (l : List String) : (jsSetOfList l).Nodup :=
  foldl_jsSetAdd_nodup l [] List.nodup_nil

theorem jsSetOfList_toFinset (l : List String) :
    (jsSetOfList l).toFinset = l.toFinset := by
  ext a
  simp [List.mem_toFinset, jsSetOfList_mem]

theorem jsSetOfList_length (l : List String) :
    (jsSetOfList l).length = l.toFinset.card := by
  rw [← List.toFinset_card_of_nodup (jsSetOfList_nodup l), jsSetOfList_toFinset]

theorem jsSetOfList_filter_length (l : List String) (p : String → Bool) :
    ((jsSetOfList l).filter p).length = (l.toFinset.filter (p ·)).card := by
  rw [← List.toFinset_card_of_nodup ((jsSetOfList_nodup l).filter p),
    List.toFinset_filter, jsSetOfList_toFinset]

/-! ## Substring machinery -/

theorem hasPre_append (p s t : List Char) (h : hasPre p s = true) :
    hasPre p (s ++ t) = true := by
  induction p generalizing s with
  | nil => rfl
  | cons a p ih =>
    cases s with
    | nil => exact absurd h (by simp [hasPre])
    | cons b s =>
      simp only [hasPre, Bool.and_eq_true] at h
      simp only [List.cons_append, hasPre, Bool.and_eq_true]
      exact ⟨h.1, ih s h.2⟩

theorem hasPre_self (s t : List Char) : hasPre s (s ++ t) = true := by
  induction s with
  | nil => rfl
  | cons a s ih => simp [hasPre, ih]

theorem hasPre_nil_iff (p : List Char) : hasPre p [] = true ↔ p = [] := by
  cases p <;> simp [hasPre]

theorem inclSub_nil (l : List Char) : inclSub [] l = true := by
  cases l <;> simp [inclSub, hasPre]

theorem inclSub_append_left (sub a b : List Char) (h : inclSub sub a = true) :
    inclSub sub (a ++ b) = true := by
  induction a with
  | nil =>
    simp only [inclSub] at h
    have hs : sub = [] := (hasPre_nil_iff sub).mp h
    subst hs
    exact inclSub_nil b
  | cons c a ih =>
    simp only [inclSub, Bool.or_eq_true] at h
    rcases h with h | h
    · simp only [List.cons_append, inclSub, Bool.or_eq_true]
      exact Or.inl (hasPre_append _ _ _ h)
    · simp only [List.cons_append, inclSub, Bool.or_eq_true]
      exact Or.inr (ih h)

theorem inclSub_append_right (sub a b : List Char) (h : inclSub sub b = true) :
    inclSub sub (a ++ b) = true := by
  induction a with
  | nil => exact h
  | cons c a ih =>
    show inclSub sub (c :: (a ++ b)) = true
    simp only [inclSub, Bool.or_eq_true]
    exact Or.inr ih

theorem inclSub_self (s t : List Char) : inclSub s (s ++ t) = true := by
  cases s with
  | nil => exact inclSub_nil t
  | cons c s =>
    show inclSub (c :: s) (c :: (s ++ t)) = true
    simp only [inclSub, Bool.or_eq_true]
    exact Or.inl (by simp [hasPre, hasPre_self])

theorem inclSub_exact (pre sub post : List Char) :
    inclSub sub (pre ++ (sub ++ post)) = true :=
  inclSub_append_right sub pre (sub ++ post) (inclSub_self sub post)

/-! ## Claims C1 to C4 and C10 -/

/-- C1: `calculateSimilarity`, `areRelated` and `mergeSummaries` are total on
every input — for any texts the similarity is a well-defined value in `[0,1]`,
for any batch and threshold the relatedness is a well-defined boolean, and for
any summaries/titles lists (of any, possibly different, lengths)
`mergeSummaries` produces a document starting with the fixed title — no input
makes any of them fail. -/
theorem claim1_totality (a b : String) (summaries titles : List String) (t : ℚ) :
    0 ≤ calculateSimilarity a b ∧ calculateSimilarity a b ≤ 1 ∧
    (areRelated summaries t = true ∨ areRelated summaries t = false) ∧
    hasPre "# Combined Summary of Related Videos".data
      (mergeSummaries summaries titles).data = true := by
  refine ⟨calculateSimilarity_nonneg a b, calculateSimilarity_le_one a b,
    Bool.eq_false_or_eq_true (areRelated summaries t), ?_⟩
  simp only [mergeSummaries, String.data_append, List.append_assoc]
  exact hasPre_append _ _ _ (by decide)

/-- C2: similarity is symmetric. -/
theorem claim2_symm (a b : String) :
    calculateSimilarity a b = calculateSimilarity b a := by
  simp only [calculateSimilarity]
  set tf1 := calculateTermFrequency (extractKeywords a) with htf1
  set tf2 := calculateTermFrequency (extractKeywords b) with htf2
  have hfun : (fun t => tfHas tf1 t && tfHas tf2 t) =
      (fun t => tfHas tf2 t && tfHas tf1 t) := by
    funext t
    exact Bool.and_comm _ _
  have hlen : (jsSetOfList (tfKeys tf1 ++ tfKeys tf2)).length =
      (jsSetOfList (tfKeys tf2 ++ tfKeys tf1)).length := by
    rw [jsSetOfList_length, jsSetOfList_length, List.toFinset_append,
      List.toFinset_append, Finset.union_comm]
  have hcom :
      ((jsSetOfList (tfKeys tf1 ++ tfKeys tf2)).filter
        fun t => tfHas tf1 t && tfHas tf2 t).length =
      ((jsSetOfList (tfKeys tf2 ++ tfKeys tf1)).filter
        fun t => tfHas tf2 t && tfHas tf1 t).length := by
    rw [hfun, jsSetOfList_filter_length, jsSetOfList_filter_length,
      List.toFinset_append, List.toFinset_append, Finset.union_comm]
  rw [hlen, hcom]

/-- C3: a batch of zero or one summaries is never related, whatever the
threshold. -/
theorem claim3_single (summaries : List String) (t : ℚ)
    (h : summaries.length ≤ 1) : areRelated summaries t = false := by
  unfold areRelated
  rw [if_pos h]

/-- Witness for C3 at the singleton batch `["hello"]`. -/
theorem claim3_single_w :
    (["hello"] : List String).length ≤ 1 ∧
    areRelated ["hello"] (mkRat 15 100) = false :=
  ⟨by decide, claim3_single ["hello"] (mkRat 15 100) (by decide)⟩

theorem pairwiseRelated_mono (t1 t2 : ℚ) (hle : t2 ≤ t1) (l : List String)
    (h : pairwiseRelated t1 l = true) : pairwiseRelated t2 l = true := by
  induction l with
  | nil => simp [pairwiseRelated] at h
  | cons s rest ih =>
    simp only [pairwiseRelated, Bool.or_eq_true, List.any_eq_true] at h ⊢
    rcases h with ⟨s2, hmem, hs2⟩ | hrec
    · rw [decide_eq_true_eq] at hs2
      exact Or.inl ⟨s2, hmem, by rw [decide_eq_true_eq]; exact le_trans hle hs2⟩
    · exact Or.inr (ih hrec)

/-- C4: relatedness is antitone in the threshold — lowering the threshold
preserves a positive answer. -/
theorem claim4_threshold (summaries : List String) (t1 t2 : ℚ)
    (h : areRelated summaries t1 = true) (hlt : t2 < t1) :
    areRelated summaries t2 = true := by
  unfold areRelated at h ⊢
  by_cases hl : summaries.length ≤ 1
  · rw [if_pos hl] at h
    exact absurd h (by simp)
  · rw [if_neg hl] at h ⊢
    exact pairwiseRelated_mono t1 t2 (le_of_lt hlt) summaries h

/-- Witness for C4: a related pair at threshold 0.15 stays related at 0.10. -/
theorem claim4_threshold_w :
    areRelated ["aaa bbb", "aaa bbb"] (mkRat 15 100) = true ∧
    areRelated ["aaa bbb", "aaa bbb"] (mkRat 1 10) = true :=
  ⟨by decide, claim4_threshold ["aaa bbb", "aaa bbb"] (mkRat 15 100) (mkRat 1 10)
    (by decide) (by decide)⟩

/-- C10: for any threshold `≤ 0` and any batch of at least two summaries —
even ones yielding no keywords — `areRelated` answers `true`, because every
pairwise score (including the `0` of an empty term union) is `≥ t`. -/
theorem claim10_nonpositive (summaries : List String) (t : ℚ)
    (ht : t ≤ 0) (h2 : 2 ≤ summaries.length) : areRelated summaries t = true := by
  match summaries, h2 with
  | a :: b :: rest, _ =>
    unfold areRelated
    rw [if_neg (by simp)]
    have hab : decide (calculateSimilarity a b ≥ t) = true := by
      rw [decide_eq_true_eq]
      exact le_trans ht (calculateSimilarity_nonneg a b)
    simp [pairwiseRelated, List.any_cons, hab]

/-- Witness for C10 at threshold 0 with two keyword-free summaries. -/
theorem claim10_nonpositive_w :
    (0 : ℚ) ≤ 0 ∧ areRelated ["", ""] 0 = true :=
  ⟨le_refl 0, claim10_nonpositive ["", ""] 0 (le_refl 0) (by decide)⟩

/-! ## Claim C9: shape of the extracted keywords -/

theorem lowerChar_not_upper (c : Char) :
    ¬(65 ≤ (lowerChar c).toNat ∧ (lowerChar c).toNat ≤ 90) := by
  unfold lowerChar
  split
  case isTrue h =>
    have hv : c.toNat + 32 < 55296 := by omega
    have he : (Char.ofNat (c.toNat + 32)).toNat = c.toNat + 32 := by
      unfold Char.ofNat
      rw [dif_pos (Or.inl hv)]
      rfl
    rw [he]
    omega
  case isFalse h => exact h

theorem wordChar_cases (c : Char) (hw : jsWordChar c = true)
    (hu : ¬(65 ≤ c.toNat ∧ c.toNat ≤ 90)) :
    (isLowerAlpha c || isDigitCh c || c == '_') = true := by
  unfold jsWordChar at hw
  unfold isLowerAlpha isDigitCh
  simp only [Bool.or_eq_true, Bool.and_eq_true, decide_eq_true_eq] at hw ⊢
  rcases hw with ((h | h) | h) | h
  · exact absurd h hu
  · exact Or.inl (Or.inl ⟨h.1, h.2⟩)
  · exact Or.inl (Or.inr ⟨h.1, h.2⟩)
  · exact Or.inr h

theorem splitWsAux_chars (l : List Char) :
    ∀ (acc word : List Char) (c : Char),
      (∀ d ∈ acc, jsIsSpace d = false) →
      word ∈ splitWsAux acc l → c ∈ word →
      jsIsSpace c = false ∧ (c ∈ acc ∨ c ∈ l) := by
  induction l with
  | nil =>
    intro acc word c hacc hw hc
    unfold splitWsAux at hw
    split at hw
    · simp at hw
    · rw [List.mem_singleton] at hw
      subst hw
      rw [List.mem_reverse] at hc
      exact ⟨hacc c hc, Or.inl hc⟩
  | cons d rest ih =>
    intro acc word c hacc hw hc
    unfold splitWsAux at hw
    by_cases hd : jsIsSpace d = true
    · rw [if_pos hd] at hw
      split at hw
      · rcases ih [] word c (by simp) hw hc with ⟨hs, hmem | hmem⟩
        · simp at hmem
        · exact ⟨hs, Or.inr (List.mem_cons_of_mem d hmem)⟩
      · rcases List.mem_cons.mp hw with rfl | hw2
        · rw [List.mem_reverse] at hc
          exact ⟨hacc c hc, Or.inl hc⟩
        · rcases ih [] word c (by simp) hw2 hc with ⟨hs, hmem | hmem⟩
          · simp at hmem
          · exact ⟨hs, Or.inr (List.mem_cons_of_mem d hmem)⟩
    · rw [if_neg hd] at hw
      have hacc2 : ∀ x ∈ d :: acc, jsIsSpace x = false := by
        intro x hx
        rcases List.mem_cons.mp hx with rfl | hx2
        · exact Bool.not_eq_true _ ▸ (by revert hd; cases jsIsSpace x <;> simp)
        · exact hacc x hx2
      rcases ih (d :: acc) word c hacc2 hw hc with ⟨hs, hmem | hmem⟩
      · rcases List.mem_cons.mp hmem with rfl | hmem2
        · exact ⟨hs, Or.inr (List.mem_cons_self _ _)⟩
        · exact ⟨hs, Or.inl hmem2⟩
      · exact ⟨hs, Or.inr (List.mem_cons_of_mem d hmem)⟩

theorem keyword_chars (text : String) (w : String) (c : Char)
    (hw : w ∈ extractKeywords text) (hc : c ∈ w.data) :
    jsWordChar c = true ∧ ∃ c0 ∈ text.data, c = lowerChar c0 := by
  unfold extractKeywords at hw
  rw [List.mem_filter] at hw
  rcases List.mem_map.mp hw.1 with ⟨word, hword, rfl⟩
  have hchars := splitWsAux_chars (cleanData text) [] word c (by simp) hword hc
  rcases hchars with ⟨hs, hmem | hmem⟩
  · simp at hmem
  · unfold cleanData at hmem
    rw [List.mem_filter] at hmem
    rcases List.mem_map.mp hmem.1 with ⟨c0, hc0, rfl⟩
    refine ⟨?_, c0, hc0, rfl⟩
    have := hmem.2
    rw [Bool.or_eq_true] at this
    rcases this with h | h
    · exact h
    · rw [h] at hs
      exact absurd hs (by simp)

theorem tfHas_iff_mem_keys (m : List (String × Nat)) (w : String) :
    tfHas m w = true ↔ w ∈ tfKeys m := by
  unfold tfHas tfKeys
  simp [List.any_eq_true, List.mem_map, beq_iff_eq]

theorem tfKeys_tfStep (m : List (String × Nat)) (w : String) :
    tfKeys (tfStep m w) = if tfHas m w then tfKeys m else tfKeys m ++ [w] := by
  unfold tfStep tfHas tfKeys
  split
  case isTrue h =>
    rw [List.map_map]
    apply List.map_congr_left
    intro p _
    by_cases hp : p.1 = w
    · simp [hp]
    · simp [hp]
  case isFalse h =>
    simp

theorem tfKeys_foldl_mem (kws : List String) :
    ∀ (acc : List (String × Nat)) (w : String),
      w ∈ tfKeys (kws.foldl tfStep acc) ↔ w ∈ tfKeys acc ∨ w ∈ kws := by
  induction kws with
  | nil => simp
  | cons x rest ih =>
    intro acc w
    rw [List.foldl_cons, ih, tfKeys_tfStep]
    split
    case isTrue h =>
      have hx : x ∈ tfKeys acc := (tfHas_iff_mem_keys acc x).mp h
      simp only [List.mem_cons]
      constructor
      · rintro (hm | hm)
        · exact Or.inl hm
        · exact Or.inr (Or.inr hm)
      · rintro (hm | rfl | hm)
        · exact Or.inl hm
        · exact Or.inl hx
        · exact Or.inr hm
    case isFalse h =>
      simp only [List.mem_append, List.mem_singleton, List.mem_cons]
      tauto

theorem tfKeys_mem (kws : List String) (w : String) :
    w ∈ tfKeys (calculateTermFrequency kws) ↔ w ∈ kws := by
  unfold calculateTermFrequency
  rw [tfKeys_foldl_mem]
  simp [tfKeys]

/-- C9 counterexample: the claim says every keyword character is a lowercase
letter or a digit (underscores are neither, and in the input `"ab_cd"` the
underscore is not a letter, digit or whitespace character, so by the claim it
should have been removed) — but the extractor keeps it: JavaScript `\w`
includes `_`. -/
theorem claim9_counterexample :
    extractKeywords "ab_cd" = ["ab_cd"] ∧ '_' ∈ "ab_cd".data ∧
    (isLowerAlpha '_' || isDigitCh '_') = false := by
  exact ⟨by decide, by decide, by decide⟩

/-- C9 (amended: underscores are also kept, since the regex class `\w` is
`[A-Za-z0-9_]`): every keyword token consists only of lowercase ASCII
letters, digits and underscores, has length `> 2`, is not a stop word, and
the keys of the term-frequency map built from the keywords are keywords. -/
theorem claim9_amended (text : String) (w : String) (c : Char)
    (hw : w ∈ extractKeywords text) (hc : c ∈ w.data) :
    (isLowerAlpha c || isDigitCh c || c == '_') = true ∧
    w.length > 2 ∧ w ∉ stopWords ∧
    (∀ k ∈ tfKeys (calculateTermFrequency (extractKeywords text)),
      k ∈ extractKeywords text) := by
  have hchar := keyword_chars text w c hw hc
  rcases hchar with ⟨hword, c0, _, rfl⟩
  refine ⟨wordChar_cases _ hword (lowerChar_not_upper c0), ?_, ?_, ?_⟩
  · unfold extractKeywords at hw
    rw [List.mem_filter] at hw
    have := hw.2
    rw [Bool.and_eq_true, decide_eq_true_eq] at this
    exact this.1
  · intro hmem
    unfold extractKeywords at hw
    rw [List.mem_filter] at hw
    have h2 := hw.2
    rw [Bool.and_eq_true] at h2
    have h3 := h2.2
    rw [Bool.not_eq_eq_eq_not, Bool.not_true] at h3
    have h4 : stopWords.contains w = true := List.elem_iff.mpr hmem
    rw [h4] at h3
    exact absurd h3 (by decide)
  · intro k hk
    exact (tfKeys_mem _ k).mp hk

/-- Witness for C9 (amended) on the keyword `"hello"` of `"hello world"`. -/
theorem claim9_amended_w :
    (isLowerAlpha 'h' || isDigitCh 'h' || 'h' == '_') = true ∧
    ("hello" : String).length > 2 ∧ ("hello" : String) ∉ stopWords ∧
    (∀ k ∈ tfKeys (calculateTermFrequency (extractKeywords "hello world")),
      k ∈ extractKeywords "hello world") :=
  claim9_amended "hello world" "hello" 'h' (by decide) (by decide)

/-! ## Claim C8: structure of the merged document -/

theorem inclSub_of_hasPre (sub s : List Char) (h : hasPre sub s = true) :
    inclSub sub s = true := by
  cases s with
  | nil => exact h
  | cons c rest =>
    simp only [inclSub, Bool.or_eq_true]
    exact Or.inl h

theorem inclSub_three (a b c rest : List Char) :
    inclSub (a ++ (b ++ c)) (a ++ (b ++ (c ++ rest))) = true := by
  have h : a ++ (b ++ (c ++ rest)) = (a ++ (b ++ c)) ++ rest := by
    simp [List.append_assoc]
  rw [h]
  exact inclSub_self _ _

/-- C8: for any summaries and titles (including empty lists) the merged
document contains the five fixed section strings, and the generic fallback
sentences of the Overview and Overall Conclusion sections appear whenever no
overview (resp. conclusion) fragment was collected. -/
theorem claim8_structure (summaries titles : List String) :
    containsStr (mergeSummaries summaries titles) "Combined Summary of Related Videos" = true ∧
    containsStr (mergeSummaries summaries titles) "Videos Analyzed" = true ∧
    containsStr (mergeSummaries summaries titles) "Overview" = true ∧
    containsStr (mergeSummaries summaries titles) "Key Points From All Videos" = true ∧
    containsStr (mergeSummaries summaries titles) "Overall Conclusion" = true ∧
    (collectOverviews summaries = [] →
      containsStr (mergeSummaries summaries titles)
        "These videos discuss related topics." = true) ∧
    (collectConclusions summaries = [] →
      containsStr (mergeSummaries summaries titles)
        "These videos cover related content and should be considered together for a comprehensive understanding of the topic." = true) := by
  refine ⟨?_, ?_, ?_, ?_, ?_, ?_, ?_⟩
  · simp only [containsStr, mergeSummaries, String.data_append, List.append_assoc]
    exact inclSub_append_left _ _ _ (by decide)
  · simp only [containsStr, mergeSummaries, String.data_append, List.append_assoc]
    apply inclSub_append_right
    exact inclSub_append_left _ _ _ (by decide)
  · simp only [containsStr, mergeSummaries, String.data_append, List.append_assoc]
    iterate 3 apply inclSub_append_right
    exact inclSub_append_left _ _ _ (by decide)
  · simp only [containsStr, mergeSummaries, String.data_append, List.append_assoc]
    iterate 5 apply inclSub_append_right
    exact inclSub_append_left _ _ _ (by decide)
  · simp only [containsStr, mergeSummaries, String.data_append, List.append_assoc]
    iterate 7 apply inclSub_append_right
    exact inclSub_append_left _ _ _ (by decide)
  · intro h
    simp only [containsStr, mergeSummaries, h, String.data_append, List.append_assoc]
    rw [if_neg (by simp)]
    simp only [String.data_append, List.append_assoc]
    iterate 4 apply inclSub_append_right
    exact inclSub_append_left _ _ _ (by decide)
  · intro h
    simp only [containsStr, mergeSummaries, h, String.data_append, List.append_assoc]
    rw [if_neg (show ¬(([] : List String).length > 0) by simp)]
    simp only [String.data_append, List.append_assoc]
    iterate 8 apply inclSub_append_right
    decide

/-- Witness for C8's two fallback implications, at a summary with no usable
fragments. -/
theorem claim8_structure_w :
    containsStr (mergeSummaries [""] []) "These videos discuss related topics." = true ∧
    containsStr (mergeSummaries [""] [])
      "These videos cover related content and should be considered together for a comprehensive understanding of the topic." = true :=
  ⟨(claim8_structure [""] []).2.2.2.2.2.1 (by decide),
   (claim8_structure [""] []).2.2.2.2.2.2 (by decide)⟩

/-! ## Claim C5: bullet deduplication -/

theorem inclSub_refl (s : List Char) : inclSub s s = true := by
  have h := inclSub_self s []
  rwa [List.append_nil] at h

theorem prefRelated_refl (p : String) : prefRelated p p :=
  Or.inl (inclSub_refl (firstFiveWords p).data)

theorem dedup_isDup_iff (u : List String) (p : String) :
    (u.any fun existingPoint =>
      containsStr (firstFiveWords existingPoint) (firstFiveWords p) ||
      containsStr (firstFiveWords p) (firstFiveWords existingPoint)) = true ↔
    ∃ q ∈ u, prefRelated p q := by
  rw [List.any_eq_true]
  unfold prefRelated
  simp only [Bool.or_eq_true]

theorem dedupStep_eq_spec (u : List String) (p : String) :
    dedupStep u p = c5SpecStep u p := by
  simp only [dedupStep, c5SpecStep]
  by_cases h : ∃ q ∈ u, prefRelated p q
  · rw [if_pos ((dedup_isDup_iff u p).mpr h), if_pos h]
  · rw [if_neg (fun hb => h ((dedup_isDup_iff u p).mp hb)), if_neg h]

theorem dedupPoints_eq_spec (pts : List String) :
    dedupPoints pts = pts.foldl c5SpecStep [] := by
  unfold dedupPoints
  have h : dedupStep = c5SpecStep := by
    funext u p
    exact dedupStep_eq_spec u p
  rw [h]

theorem dedupStep_nodup (u : List String) (p : String) (h : u.Nodup) :
    (dedupStep u p).Nodup := by
  simp only [dedupStep]
  split
  case isTrue => exact h
  case isFalse hdup =>
    have hp : p ∉ u := by
      intro hmem
      apply hdup
      rw [List.any_eq_true]
      exact ⟨p, hmem, by
        rw [Bool.or_eq_true]
        exact Or.inl (inclSub_refl (firstFiveWords p).data)⟩
    simp [List.nodup_append, h, hp]

theorem dedupPoints_foldl_nodup (pts : List String) :
    ∀ acc : List String, acc.Nodup → (pts.foldl dedupStep acc).Nodup := by
  induction pts with
  | nil => exact fun acc h => h
  | cons p rest ih =>
    intro acc h
    rw [List.foldl_cons]
    exact ih _ (dedupStep_nodup acc p h)

set_option maxRecDepth 8192 in
/-- C5: the deduplication of the bullet list is exactly the specified pass —
candidates in collection order, first-five-words lowercased keys compared by
substring containment in either direction against every accepted bullet,
discarded iff one matches — consequently the accepted list never repeats a
bullet, and on two summaries sharing the bullet
`"* Uses blockchain for security"` the merged document contains that text
exactly once. -/
theorem claim5_dedup (pts : List String) :
    dedupPoints pts = pts.foldl c5SpecStep [] ∧
    (dedupPoints pts).Nodup ∧
    occCount "* Uses blockchain for security".data
      (mergeSummaries
        ["First video intro paragraph.\n\n* Uses blockchain for security\n* Fast transactions\n\nThis is the first conclusion.",
         "Second video intro.\n\n* Uses blockchain for security\n\nThis is the second conclusion."]
        ["Video A", "Video B"]).data = 1 :=
  ⟨dedupPoints_eq_spec pts, dedupPoints_foldl_nodup pts [] List.nodup_nil, by decide⟩

/-! ## Claim C7: bullet extraction -/

theorem trimChars_newline (x : List Char) : trimChars (x ++ ['\n']) = trimChars x := by
  unfold trimChars
  rw [List.reverse_append]
  simp only [List.reverse_cons, List.reverse_nil, List.nil_append, List.singleton_append]
  rw [List.dropWhile_cons, if_pos (by decide)]

theorem not_lineTerm_ne_nl (c : Char) (h : jsLineTerm c = false) : c ≠ '\n' := by
  intro hc
  subst hc
  exact absurd h (by decide)

theorem lineTerm_ne_star (c : Char) (h : jsLineTerm c = true) : c ≠ '*' := by
  intro hc
  subst hc
  exact absurd h (by decide)

theorem lineTerm_ne_space (c : Char) (h : jsLineTerm c = true) : c ≠ ' ' := by
  intro hc
  subst hc
  exact absurd h (by decide)

theorem scanBullets_nl_head (rest : List Char) :
    scanBulletsAux none ('\n' :: rest) = scanBulletsAux none rest := by
  cases rest with
  | nil => rfl
  | cons d t =>
    show scanBulletsAux none ('\n' :: d :: t) = _
    rw [scanBulletsAux]
    rw [if_neg (by rintro ⟨h, -⟩; exact absurd h (by decide))]

theorem scanBullets_some_nl (t : List Char) :
    ∀ (rest acc : List Char), (∀ x ∈ t, jsLineTerm x = false) →
      scanBulletsAux (some acc) (t ++ '\n' :: rest) =
      ('*' :: ' ' :: (acc.reverse ++ t ++ ['\n'])) :: scanBulletsAux none rest := by
  induction t with
  | nil =>
    intro rest acc _
    show scanBulletsAux (some acc) ('\n' :: rest) = _
    rw [scanBulletsAux, if_pos rfl]
    simp
  | cons c t ih =>
    intro rest acc h
    have hct : jsLineTerm c = false := h c (List.mem_cons_self c t)
    show scanBulletsAux (some acc) (c :: (t ++ '\n' :: rest)) = _
    rw [scanBulletsAux, if_neg (not_lineTerm_ne_nl c hct), if_neg (by rw [hct]; simp),
      ih rest (c :: acc) (fun x hx => h x (List.mem_cons_of_mem c hx))]
    simp [List.append_assoc]

theorem scanBullets_some_end (t : List Char) :
    ∀ acc : List Char, (∀ x ∈ t, jsLineTerm x = false) →
      scanBulletsAux (some acc) t = ['*' :: ' ' :: (acc.reverse ++ t)] := by
  induction t with
  | nil =>
    intro acc _
    simp [scanBulletsAux]
  | cons c t ih =>
    intro acc h
    have hct : jsLineTerm c = false := h c (List.mem_cons_self c t)
    rw [scanBulletsAux, if_neg (not_lineTerm_ne_nl c hct), if_neg (by rw [hct]; simp),
      ih (c :: acc) (fun x hx => h x (List.mem_cons_of_mem c hx))]
    simp [List.append_assoc]

theorem scanBullets_some_fail (t : List Char) :
    ∀ (c : Char) (rest acc : List Char), (∀ x ∈ t, jsLineTerm x = false) →
      jsLineTerm c = true → c ≠ '\n' →
      scanBulletsAux (some acc) (t ++ c :: rest) = scanBulletsAux none rest := by
  induction t with
  | nil =>
    intro c rest acc _ hc hcn
    show scanBulletsAux (some acc) (c :: rest) = _
    rw [scanBulletsAux, if_neg hcn, if_pos hc]
  | cons a t ih =>
    intro c rest acc h hc hcn
    have hat : jsLineTerm a = false := h a (List.mem_cons_self a t)
    show scanBulletsAux (some acc) (a :: (t ++ c :: rest)) = _
    rw [scanBulletsAux, if_neg (not_lineTerm_ne_nl a hat), if_neg (by rw [hat]; simp)]
    exact ih c rest (a :: acc) (fun x hx => h x (List.mem_cons_of_mem a hx)) hc hcn

theorem scanBullets_line_some (line : List Char) :
    ∀ m, lineBullet line = some m → (∀ x ∈ line, jsLineTerm x = false) → ∀ rest,
      scanBulletsAux none (line ++ '\n' :: rest) =
        (m ++ ['\n']) :: scanBulletsAux none rest := by
  induction line with
  | nil => intro m hm; simp [lineBullet] at hm
  | cons c rest2 ih =>
    intro m hm hnl rest
    cases rest2 with
    | nil => simp [lineBullet] at hm
    | cons d t =>
      rw [lineBullet] at hm
      by_cases hcd : c = '*' ∧ d = ' '
      · rw [if_pos hcd] at hm
        obtain ⟨rfl, rfl⟩ := hcd
        cases hm
        show scanBulletsAux none ('*' :: ' ' :: (t ++ '\n' :: rest)) = _
        rw [scanBulletsAux, if_pos ⟨rfl, rfl⟩]
        rw [scanBullets_some_nl t rest []
          (fun x hx => hnl x (List.mem_cons_of_mem _ (List.mem_cons_of_mem _ hx)))]
        simp
      · rw [if_neg hcd] at hm
        show scanBulletsAux none (c :: d :: (t ++ '\n' :: rest)) = _
        rw [scanBulletsAux, if_neg hcd]
        exact ih m hm (fun x hx => hnl x (List.mem_cons_of_mem c hx)) rest

theorem scanBullets_line_none (line : List Char) :
    lineBullet line = none → (∀ x ∈ line, jsLineTerm x = false) → ∀ rest,
      scanBulletsAux none (line ++ '\n' :: rest) = scanBulletsAux none rest := by
  induction line with
  | nil => exact fun _ _ rest => scanBullets_nl_head rest
  | cons c rest2 ih =>
    intro hm hnl rest
    cases rest2 with
    | nil =>
      show scanBulletsAux none (c :: '\n' :: rest) = _
      rw [scanBulletsAux,
        if_neg (by rintro ⟨-, h⟩; exact absurd h (by decide))]
      exact scanBullets_nl_head rest
    | cons d t =>
      rw [lineBullet] at hm
      by_cases hcd : c = '*' ∧ d = ' '
      · rw [if_pos hcd] at hm
        cases hm
      · rw [if_neg hcd] at hm
        show scanBulletsAux none (c :: d :: (t ++ '\n' :: rest)) = _
        rw [scanBulletsAux, if_neg hcd]
        exact ih hm (fun x hx => hnl x (List.mem_cons_of_mem c hx)) rest

theorem scanBullets_end_some (line : List Char) :
    ∀ m, lineBullet line = some m → (∀ x ∈ line, jsLineTerm x = false) →
      scanBulletsAux none line = [m] := by
  induction line with
  | nil => intro m hm; simp [lineBullet] at hm
  | cons c rest2 ih =>
    intro m hm hnl
    cases rest2 with
    | nil => simp [lineBullet] at hm
    | cons d t =>
      rw [lineBullet] at hm
      by_cases hcd : c = '*' ∧ d = ' '
      · rw [if_pos hcd] at hm
        obtain ⟨rfl, rfl⟩ := hcd
        cases hm
        rw [scanBulletsAux, if_pos ⟨rfl, rfl⟩]
        rw [scanBullets_some_end t []
          (fun x hx => hnl x (List.mem_cons_of_mem _ (List.mem_cons_of_mem _ hx)))]
        simp
      · rw [if_neg hcd] at hm
        rw [scanBulletsAux, if_neg hcd]
        exact ih m hm (fun x hx => hnl x (List.mem_cons_of_mem c hx))

theorem scanBullets_end_none (line : List Char) :
    lineBullet line = none → (∀ x ∈ line, jsLineTerm x = false) →
      scanBulletsAux none line = [] := by
  induction line with
  | nil => intro _ _; rfl
  | cons c rest2 ih =>
    intro hm hnl
    cases rest2 with
    | nil => rfl
    | cons d t =>
      rw [lineBullet] at hm
      by_cases hcd : c = '*' ∧ d = ' '
      · rw [if_pos hcd] at hm
        cases hm
      · rw [if_neg hcd] at hm
        rw [scanBulletsAux, if_neg hcd]
        exact ih hm (fun x hx => hnl x (List.mem_cons_of_mem c hx))

theorem scanBullets_seg_fail (seg : List Char) :
    ∀ (c : Char) (rest : List Char), (∀ x ∈ seg, jsLineTerm x = false) →
      jsLineTerm c = true → c ≠ '\n' →
      scanBulletsAux none (seg ++ c :: rest) = scanBulletsAux none rest := by
  induction seg with
  | nil =>
    intro c rest _ hc hcn
    show scanBulletsAux none (c :: rest) = _
    cases rest with
    | nil => rfl
    | cons d t =>
      rw [scanBulletsAux,
        if_neg (by rintro ⟨h, -⟩; exact lineTerm_ne_star c hc h)]
  | cons a seg2 ih =>
    intro c rest hseg hc hcn
    cases seg2 with
    | nil =>
      show scanBulletsAux none (a :: c :: rest) = _
      rw [scanBulletsAux,
        if_neg (by rintro ⟨-, h⟩; exact lineTerm_ne_space c hc h)]
      cases rest with
      | nil => rfl
      | cons d t =>
        rw [scanBulletsAux,
          if_neg (by rintro ⟨h, -⟩; exact lineTerm_ne_star c hc h)]
    | cons b seg3 =>
      by_cases hab : a = '*' ∧ b = ' '
      · obtain ⟨rfl, rfl⟩ := hab
        show scanBulletsAux none ('*' :: ' ' :: (seg3 ++ c :: rest)) = _
        rw [scanBulletsAux, if_pos ⟨rfl, rfl⟩]
        exact scanBullets_some_fail seg3 c rest []
          (fun x hx => hseg x (List.mem_cons_of_mem _ (List.mem_cons_of_mem _ hx))) hc hcn
      · show scanBulletsAux none (a :: b :: (seg3 ++ c :: rest)) = _
        rw [scanBulletsAux, if_neg hab]
        exact ih c rest (fun x hx => hseg x (List.mem_cons_of_mem a hx)) hc hcn

theorem splitTermsAux_no_term (seg : List Char) (hseg : ∀ x ∈ seg, jsLineTerm x = false) :
    ∀ acc, splitTermsAux acc seg = [(acc.reverse ++ seg, true)] := by
  induction seg with
  | nil => intro acc; simp [splitTermsAux]
  | cons c t ih =>
    intro acc
    have hct : jsLineTerm c = false := hseg c (List.mem_cons_self c t)
    rw [splitTermsAux, if_neg (not_lineTerm_ne_nl c hct), if_neg (by rw [hct]; simp),
      ih (fun x hx => hseg x (List.mem_cons_of_mem c hx))]
    simp

theorem splitTermsAux_nl (seg : List Char) (hseg : ∀ x ∈ seg, jsLineTerm x = false) :
    ∀ (acc rest : List Char),
      splitTermsAux acc (seg ++ '\n' :: rest) =
        (acc.reverse ++ seg, true) :: splitTermsAux [] rest := by
  induction seg with
  | nil =>
    intro acc rest
    show splitTermsAux acc ('\n' :: rest) = _
    rw [splitTermsAux, if_pos rfl]
    simp
  | cons c t ih =>
    intro acc rest
    have hct : jsLineTerm c = false := hseg c (List.mem_cons_self c t)
    show splitTermsAux acc (c :: (t ++ '\n' :: rest)) = _
    rw [splitTermsAux, if_neg (not_lineTerm_ne_nl c hct), if_neg (by rw [hct]; simp),
      ih (fun x hx => hseg x (List.mem_cons_of_mem c hx))]
    simp

theorem splitTermsAux_other (seg : List Char) (hseg : ∀ x ∈ seg, jsLineTerm x = false)
    (c : Char) (hc : jsLineTerm c = true) (hcn : c ≠ '\n') :
    ∀ (acc rest : List Char),
      splitTermsAux acc (seg ++ c :: rest) =
        (acc.reverse ++ seg, false) :: splitTermsAux [] rest := by
  induction seg with
  | nil =>
    intro acc rest
    show splitTermsAux acc (c :: rest) = _
    rw [splitTermsAux, if_neg hcn, if_pos hc]
    simp
  | cons a t ih =>
    intro acc rest
    have hat : jsLineTerm a = false := hseg a (List.mem_cons_self a t)
    show splitTermsAux acc (a :: (t ++ c :: rest)) = _
    rw [splitTermsAux, if_neg (not_lineTerm_ne_nl a hat), if_neg (by rw [hat]; simp),
      ih (fun x hx => hseg x (List.mem_cons_of_mem a hx))]
    simp

theorem dropWhile_head_false (p : Char → Bool) :
    ∀ (l : List Char) (c : Char) (rest : List Char),
      l.dropWhile p = c :: rest → p c = false := by
  intro l
  induction l with
  | nil => intro c rest h; simp at h
  | cons a t ih =>
    intro c rest h
    rw [List.dropWhile_cons] at h
    split at h
    · exact ih c rest h
    case isFalse hf =>
      cases h
      revert hf
      cases p a <;> simp

theorem takeWhile_no_term (l : List Char) :
    ∀ x ∈ l.takeWhile (fun c => !jsLineTerm c), jsLineTerm x = false := by
  intro x hx
  have h := List.mem_takeWhile_imp hx
  simpa using h

theorem scanBullets_eq_segs_aux :
    ∀ (fuel : Nat) (l : List Char), l.length ≤ fuel →
      (scanBulletsAux none l).map trimChars =
        ((splitTermsAux [] l).filterMap fun seg =>
          if seg.2 then lineBullet seg.1 else none).map trimChars := by
  intro fuel
  induction fuel with
  | zero =>
    intro l hl
    have hnil : l = [] := List.eq_nil_of_length_eq_zero (Nat.le_zero.mp hl)
    subst hnil
    rfl
  | succ f ih =>
    intro l hl
    cases hd : l.dropWhile (fun c => !jsLineTerm c) with
    | nil =>
      have hleq : l = l.takeWhile (fun c => !jsLineTerm c) := by
        conv_lhs => rw [← List.takeWhile_append_dropWhile (p := fun c => !jsLineTerm c) (l := l)]
        rw [hd, List.append_nil]
      have hnl : ∀ x ∈ l, jsLineTerm x = false := by
        intro x hx
        exact takeWhile_no_term l x (hleq ▸ hx)
      rw [splitTermsAux_no_term l hnl []]
      cases hb : lineBullet l with
      | some m =>
        rw [scanBullets_end_some l m hb hnl]
        simp [List.filterMap_cons, hb]
      | none =>
        rw [scanBullets_end_none l hb hnl]
        simp [List.filterMap_cons, hb]
    | cons c rest =>
      have hterm : jsLineTerm c = true := by
        have h := dropWhile_head_false (fun c => !jsLineTerm c) l c rest hd
        simpa using h
      have hnl : ∀ x ∈ l.takeWhile (fun c => !jsLineTerm c), jsLineTerm x = false :=
        takeWhile_no_term l
      have hdecomp : l = l.takeWhile (fun c => !jsLineTerm c) ++ c :: rest := by
        conv_lhs => rw [← List.takeWhile_append_dropWhile (p := fun c => !jsLineTerm c) (l := l)]
        rw [hd]
      have hlen : rest.length ≤ f := by
        have h1 : l.length = (l.takeWhile (fun c => !jsLineTerm c)).length + (rest.length + 1) := by
          conv_lhs => rw [hdecomp]
          simp
        omega
      by_cases hcn : c = '\n'
      · subst hcn
        rw [hdecomp, splitTermsAux_nl _ hnl [] rest]
        cases hb : lineBullet (l.takeWhile (fun c => !jsLineTerm c)) with
        | some m =>
          rw [scanBullets_line_some _ m hb hnl rest]
          simp only [List.reverse_nil, List.nil_append, List.filterMap_cons, if_pos, hb,
            List.map_cons]
          rw [trimChars_newline, ih rest hlen]
        | none =>
          rw [scanBullets_line_none _ hb hnl rest]
          simp only [List.reverse_nil, List.nil_append, List.filterMap_cons, if_pos, hb]
          exact ih rest hlen
      · rw [hdecomp, splitTermsAux_other _ hnl c hterm hcn [] rest,
          scanBullets_seg_fail _ c rest hnl hterm hcn]
        simp only [List.reverse_nil, List.nil_append, List.filterMap_cons, if_neg]
        exact ih rest hlen

theorem scanBullets_eq_segs (l : List Char) :
    (scanBulletsAux none l).map trimChars =
      ((splitTermsAux [] l).filterMap fun seg =>
        if seg.2 then lineBullet seg.1 else none).map trimChars :=
  scanBullets_eq_segs_aux l.length l (le_refl _)

theorem textBullets_eq (s : String) :
    (scanBulletsAux none s.data).map (fun m => String.mk (trimChars m)) =
      c7TextBullets s := by
  unfold c7TextBullets
  have hmap : ∀ (X : List (List Char)),
      X.map (fun m => String.mk (trimChars m)) = (X.map trimChars).map String.mk := by
    intro X
    rw [List.map_map]
    rfl
  rw [hmap, scanBullets_eq_segs, ← hmap]

/-- C7 counterexample: in `"foo * bar"` the marker `"* "` occurs only
mid-line, yet the extractor captures `"* bar"`; the claim as stated predicts
that no bullet is captured there. -/
theorem claim7_counterexample :
    collectPoints ["foo * bar"] = ["* bar"] ∧ c7LineLead ["foo * bar"] = [] :=
  ⟨by decide, by decide⟩

/-- C7 (amended: the regex `/\* (.*?)(?:\n|$)/g` has no line anchor, and its
dot refuses every line terminator): splitting each summary at every line
terminator (LF, CR, U+2028, U+2029), a segment contributes a bullet iff it is
closed by an LF or by the end of the string and contains `"* "`; the bullet
is the capture from the segment's first `"* "` — wherever it sits in the
segment, mid-line or not — to the segment's end, trimmed of surrounding
whitespace.  Segments closed by CR/LS/PS, such as every line of a CRLF
document, contribute nothing; summaries are processed in input order and
segments in document order. -/
theorem claim7_amended (summaries : List String) :
    collectPoints summaries = summaries.flatMap c7TextBullets := by
  unfold collectPoints
  have hf : (fun s : String =>
      (scanBulletsAux none s.data).map (fun m => String.mk (trimChars m))) =
      c7TextBullets := by
    funext s
    exact textBullets_eq s
  rw [hf]

/-! ## Claim C6: overview extraction and selection -/

theorem grabPara_some (m p : List Char) (h : grabPara m = some p) :
    qualAt m 0 = true ∧ p = runAt m 0 := by
  unfold grabPara at h
  split at h
  case isTrue hq =>
    cases h
    exact ⟨hq, rfl⟩
  case isFalse => cases h

theorem grabPara_none_iff (m : List Char) :
    grabPara m = none ↔ qualAt m 0 = false := by
  unfold grabPara
  split
  case isTrue h => simp [h]
  case isFalse h =>
    rw [Bool.not_eq_true] at h
    simp [h]

theorem runAt_shift (c : Char) (m : List Char) (i : Nat) (h : 1 ≤ i) :
    runAt (c :: m) i = runAt m (i - 1) := by
  unfold runAt
  congr 1
  cases i with
  | zero => omega
  | succ n => simp

theorem qualAt_shift (c : Char) (m : List Char) (i : Nat) (h : 1 ≤ i) :
    qualAt (c :: m) i = qualAt m (i - 1) := by
  unfold qualAt
  congr 2
  cases i with
  | zero => omega
  | succ n => simp

theorem candAt_shift (c : Char) (m : List Char) (i : Nat) (h : 3 ≤ i) :
    candAt (c :: m) i = candAt m (i - 1) := by
  unfold candAt
  have h0 : (i == 0) = false := by simp only [beq_eq_false_iff_ne]; omega
  have h0m : (i - 1 == 0) = false := by simp only [beq_eq_false_iff_ne]; omega
  have h2 : decide (2 ≤ i) = true := by simp; omega
  have h2m : decide (2 ≤ i - 1) = true := by simp; omega
  have hdrop : (c :: m).drop (i - 2) = m.drop (i - 1 - 2) := by
    have he : i - 2 = (i - 1 - 2) + 1 := by omega
    rw [he]
    simp
  rw [h0, h0m, h2, h2m, hdrop]

theorem c6Cand_shift (c : Char) (m : List Char) (i : Nat) (h : 3 ≤ i) :
    c6Cand (c :: m) i = c6Cand m (i - 1) := by
  unfold c6Cand
  rw [candAt_shift c m i h, qualAt_shift c m i (by omega)]

theorem c6Cand_one (l : List Char) : c6Cand l 1 = false := by
  unfold c6Cand candAt
  simp

theorem c6Cand_nil (i : Nat) (h : 2 ≤ i) : c6Cand ([] : List Char) i = false := by
  unfold c6Cand candAt
  have h0 : (i == 0) = false := by simp only [beq_eq_false_iff_ne]; omega
  rw [List.drop_nil, h0]
  simp [hasPre]

theorem c6Cand_single (c : Char) (i : Nat) (h : 2 ≤ i) :
    c6Cand [c] i = false := by
  unfold c6Cand candAt
  have h0 : (i == 0) = false := by simp only [beq_eq_false_iff_ne]; omega
  rcases Nat.lt_or_ge i 3 with h3 | h3
  · have hi : i = 2 := by omega
    subst hi
    simp [hasPre]
  · have hdrop : ([c] : List Char).drop (i - 2) = [] := by
      apply List.drop_eq_nil_of_le
      simp
      omega
    rw [hdrop, h0]
    simp [hasPre]

theorem hasPre_nn_false (c d : Char) (rest : List Char) (h : ¬(c = '\n' ∧ d = '\n')) :
    hasPre ['\n', '\n'] (c :: d :: rest) = false := by
  cases hc : ('\n' == c) with
  | false => simp [hasPre, hc]
  | true =>
    cases hd2 : ('\n' == d) with
    | false => simp [hasPre, hc, hd2]
    | true =>
      exact absurd ⟨(beq_iff_eq.mp hc).symm, (beq_iff_eq.mp hd2).symm⟩ h

theorem qualAt_two_cons (c d : Char) (rest : List Char) :
    qualAt (c :: d :: rest) 2 = qualAt rest 0 := rfl

theorem scanBlank_none_spec : ∀ (l : List Char), scanBlank l = none →
    ∀ i, 2 ≤ i → c6Cand l i = false := by
  intro l
  induction l with
  | nil => exact fun _ i hi => c6Cand_nil i hi
  | cons c m ih =>
    intro hs i hi
    cases m with
    | nil => exact c6Cand_single c i hi
    | cons d rest =>
      rw [scanBlank] at hs
      by_cases hnn : c = '\n' ∧ d = '\n'
      · rw [if_pos hnn] at hs
        cases hgp : grabPara rest with
        | some p =>
          rw [hgp] at hs
          cases hs
        | none =>
          rw [hgp] at hs
          rcases Nat.lt_or_ge i 3 with h3 | h3
          · have hi2 : i = 2 := by omega
            subst hi2
            have hq2 : qualAt (c :: d :: rest) 2 = false := by
              rw [qualAt_two_cons]
              exact (grabPara_none_iff rest).mp hgp
            unfold c6Cand
            rw [hq2, Bool.and_false]
          · rw [c6Cand_shift c (d :: rest) i h3]
            exact ih hs (i - 1) (by omega)
      · rw [if_neg hnn] at hs
        rcases Nat.lt_or_ge i 3 with h3 | h3
        · have hi2 : i = 2 := by omega
          subst hi2
          unfold c6Cand candAt
          rw [show ((c :: d :: rest).drop (2 - 2)) = c :: d :: rest from rfl,
            hasPre_nn_false c d rest hnn]
          simp
        · rw [c6Cand_shift c (d :: rest) i h3]
          exact ih hs (i - 1) (by omega)

theorem scanBlank_some_spec : ∀ (l g : List Char), scanBlank l = some g →
    ∃ i, 2 ≤ i ∧ c6Cand l i = true ∧ g = runAt l i ∧
      ∀ j, 2 ≤ j → j < i → c6Cand l j = false := by
  intro l
  induction l with
  | nil => intro g hs; cases hs
  | cons c m ih =>
    intro g hs
    cases m with
    | nil => cases hs
    | cons d rest =>
      rw [scanBlank] at hs
      by_cases hnn : c = '\n' ∧ d = '\n'
      · rw [if_pos hnn] at hs
        cases hgp : grabPara rest with
        | some p =>
          rw [hgp] at hs
          have hpg : p = g := by injection hs
          subst hpg
          obtain ⟨hq, hrun⟩ := grabPara_some rest p hgp
          obtain ⟨rfl, rfl⟩ := hnn
          refine ⟨2, le_refl 2, ?_, ?_, ?_⟩
          · unfold c6Cand candAt
            rw [show (('\n' :: '\n' :: rest).drop (2 - 2)) = '\n' :: '\n' :: rest from rfl]
            rw [qualAt_two_cons, hq]
            simp [hasPre]
          · rw [show runAt ('\n' :: '\n' :: rest) 2 = runAt rest 0 from rfl]
            exact hrun
          · intro j hj2 hj
            omega
        | none =>
          rw [hgp] at hs
          obtain ⟨i, hi2, hcand, hrun, hmin⟩ := ih g hs
          refine ⟨i + 1, by omega, ?_, ?_, ?_⟩
          · rw [c6Cand_shift c (d :: rest) (i + 1) (by omega)]
            simpa using hcand
          · rw [runAt_shift c (d :: rest) (i + 1) (by omega)]
            simpa using hrun
          · intro j hj2 hj
            rcases Nat.lt_or_ge j 3 with h3 | h3
            · have hj3 : j = 2 := by omega
              subst hj3
              have hq2 : qualAt (c :: d :: rest) 2 = false := by
                rw [qualAt_two_cons]
                exact (grabPara_none_iff rest).mp hgp
              unfold c6Cand
              rw [hq2, Bool.and_false]
            · rw [c6Cand_shift c (d :: rest) j h3]
              exact hmin (j - 1) (by omega) (by omega)
      · rw [if_neg hnn] at hs
        obtain ⟨i, hi2, hcand, hrun, hmin⟩ := ih g hs
        refine ⟨i + 1, by omega, ?_, ?_, ?_⟩
        · rw [c6Cand_shift c (d :: rest) (i + 1) (by omega)]
          simpa using hcand
        · rw [runAt_shift c (d :: rest) (i + 1) (by omega)]
          simpa using hrun
        · intro j hj2 hj
          rcases Nat.lt_or_ge j 3 with h3 | h3
          · have hj3 : j = 2 := by omega
            subst hj3
            unfold c6Cand candAt
            rw [show ((c :: d :: rest).drop (2 - 2)) = c :: d :: rest from rfl,
              hasPre_nn_false c d rest hnn]
            simp
          · rw [c6Cand_shift c (d :: rest) j h3]
            exact hmin (j - 1) (by omega) (by omega)

theorem ovGroup_spec (l : List Char) : c6FirstGroup l (ovGroup l) := by
  unfold ovGroup
  cases hg : grabPara l with
  | some p =>
    obtain ⟨hq, hrun⟩ := grabPara_some l p hg
    show ∃ i, c6Cand l i = true ∧ p = runAt l i ∧ ∀ j, j < i → c6Cand l j = false
    refine ⟨0, ?_, hrun, fun j hj => absurd hj (Nat.not_lt_zero j)⟩
    unfold c6Cand candAt
    simp [hq]
  | none =>
    have hq0 : qualAt l 0 = false := (grabPara_none_iff l).mp hg
    cases hsb : scanBlank l with
    | none =>
      show ∀ i, c6Cand l i = false
      intro i
      match i with
      | 0 =>
        unfold c6Cand
        rw [hq0, Bool.and_false]
      | 1 => exact c6Cand_one l
      | (j + 2) => exact scanBlank_none_spec l hsb (j + 2) (by omega)
    | some g =>
      obtain ⟨i, hi2, hcand, hrun, hmin⟩ := scanBlank_some_spec l g hsb
      show ∃ i, c6Cand l i = true ∧ g = runAt l i ∧ ∀ j, j < i → c6Cand l j = false
      refine ⟨i, hcand, hrun, ?_⟩
      intro j hj
      match j with
      | 0 =>
        unfold c6Cand
        rw [hq0, Bool.and_false]
      | 1 => exact c6Cand_one l
      | (j2 + 2) => exact hmin (j2 + 2) (by omega) hj

theorem firstMaxLen_eq_none (l : List String) : firstMaxLen l = none ↔ l = [] := by
  cases l with
  | nil => simp [firstMaxLen]
  | cons a rest =>
    constructor
    · intro h
      exfalso
      rw [firstMaxLen] at h
      cases hm : firstMaxLen rest <;> rw [hm] at h
      · cases h
      · rename_i m
        by_cases hl : a.length < m.length <;> simp [hl] at h
    · intro h
      cases h

theorem firstMaxLen_spec : ∀ (l : List String) (b : String), firstMaxLen l = some b →
    b ∈ l ∧ ∀ o ∈ l, o.length ≤ b.length := by
  intro l
  induction l with
  | nil => intro b h; cases h
  | cons a rest ih =>
    intro b h
    rw [firstMaxLen] at h
    cases hm : firstMaxLen rest with
    | none =>
      rw [hm] at h
      have h2 : some a = some b := h
      cases h2
      have hrest : rest = [] := (firstMaxLen_eq_none rest).mp hm
      subst hrest
      refine ⟨List.mem_cons_self a [], ?_⟩
      intro o ho
      rcases List.mem_cons.mp ho with rfl | h2
      · exact le_refl _
      · simp at h2
    | some m =>
      rw [hm] at h
      have h2 : (if a.length < m.length then some m else some a) = some b := h
      obtain ⟨hmem, hbound⟩ := ih m hm
      by_cases hl : a.length < m.length
      · rw [if_pos hl] at h2
        cases h2
        refine ⟨List.mem_cons_of_mem a hmem, ?_⟩
        intro o ho
        rcases List.mem_cons.mp ho with rfl | h3
        · exact le_of_lt hl
        · exact hbound o h3
      · rw [if_neg hl] at h2
        cases h2
        refine ⟨List.mem_cons_self a rest, ?_⟩
        intro o ho
        rcases List.mem_cons.mp ho with rfl | h3
        · exact le_refl _
        · exact le_trans (hbound o h3) (Nat.le_of_not_lt hl)

theorem sortLenDesc_head (l : List String) :
    (sortLenDesc l).head? = firstMaxLen l := by
  induction l with
  | nil => rfl
  | cons a rest ih =>
    show (insLenDesc a (sortLenDesc rest)).head? = _
    rw [firstMaxLen]
    cases hs : sortLenDesc rest with
    | nil =>
      rw [hs] at ih
      simp only [List.head?_nil] at ih
      rw [← ih]
      simp [insLenDesc]
    | cons m s =>
      rw [hs] at ih
      simp only [List.head?_cons] at ih
      rw [← ih]
      show (insLenDesc a (m :: s)).head? = if a.length < m.length then some m else some a
      rw [insLenDesc]
      by_cases hle : m.length ≤ a.length
      · rw [if_pos hle, if_neg (Nat.not_lt.mpr hle)]
        rfl
      · rw [if_neg hle, if_pos (Nat.lt_of_not_le hle)]
        rfl

theorem sortLenDesc_headD (l : List String) (b : String)
    (h : firstMaxLen l = some b) : (sortLenDesc l).headD "" = b := by
  have hh := sortLenDesc_head l
  rw [h] at hh
  cases hs : sortLenDesc l with
  | nil => rw [hs] at hh; cases hh
  | cons x xs =>
    rw [hs] at hh
    simp only [List.head?_cons, Option.some_inj] at hh
    simp [hh]

set_option maxRecDepth 8192 in
/-- C6 counterexample: for the summary `"abc\ndef"` the claim's first
paragraph (its text up to the next blank line or the end, here the whole
string) is non-empty, so the claim puts it in the Overview section — but the
regex group `(.*?)` cannot cross the lone newline, the extractor collects
nothing, and the merged document falls back to the generic sentence,
containing `"abc\ndef"` nowhere. -/
theorem claim6_counterexample :
    collectOverviews ["abc\ndef"] = [] ∧
    (splitBlankAux [] "abc\ndef".data).headD [] = "abc\ndef".data ∧
    containsStr (mergeSummaries ["abc\ndef"] ["T"]) "abc\ndef" = false ∧
    containsStr (mergeSummaries ["abc\ndef"] ["T"])
      "These videos discuss related topics." = true :=
  ⟨by decide, by decide, by decide, by decide⟩

/-- C6 (amended: the extracted fragment is the group of the *first regex
match* — a run of characters containing no line terminator (LF, CR, U+2028,
U+2029), starting at the string start or just after two consecutive LFs and
terminated by a literal blank line (two LFs) or the end of the string; a
first paragraph containing a lone newline — or any other line terminator,
such as the CR of a CRLF document — yields no fragment): the extraction
satisfies the least-matching-offset description, and the Overview section
carries the longest collected fragment (ties to the earliest), or the
generic sentence when none was collected. -/
theorem claim6_amended (summaries titles : List String) :
    (∀ s : String, c6FirstGroup s.data (ovGroup s.data)) ∧
    (∀ best, firstMaxLen (collectOverviews summaries) = some best →
      best ∈ collectOverviews summaries ∧
      (∀ o ∈ collectOverviews summaries, o.length ≤ best.length) ∧
      containsStr (mergeSummaries summaries titles)
        ("## Overview\n\n" ++ best ++ "\n\n") = true) ∧
    (collectOverviews summaries = [] →
      containsStr (mergeSummaries summaries titles)
        "These videos discuss related topics." = true) := by
  refine ⟨fun s => ovGroup_spec s.data, ?_, ?_⟩
  · intro best hbest
    obtain ⟨hmem, hbound⟩ := firstMaxLen_spec (collectOverviews summaries) best hbest
    refine ⟨hmem, hbound, ?_⟩
    have hne : (collectOverviews summaries).length > 0 := by
      cases hcol : collectOverviews summaries with
      | nil =>
        rw [hcol] at hbest
        simp [firstMaxLen] at hbest
      | cons x xs =>
        simp
    have hD : (sortLenDesc (collectOverviews summaries)).headD "" = best :=
      sortLenDesc_headD _ best hbest
    simp only [containsStr, mergeSummaries, if_pos hne, hD]
    rw [show ("\n## Overview\n\n" : String) = "\n" ++ "## Overview\n\n" by decide]
    simp only [String.data_append, List.append_assoc]
    iterate 4 apply inclSub_append_right
    exact inclSub_three _ _ _ _
  · intro h
    simp only [containsStr, mergeSummaries, h, String.data_append, List.append_assoc]
    rw [if_neg (by simp)]
    simp only [String.data_append, List.append_assoc]
    iterate 4 apply inclSub_append_right
    exact inclSub_append_left _ _ _ (by decide)

/-- Witness for C6 (amended): a summary with a proper first paragraph gets it
into the Overview section; a summary with a lone-newline first paragraph gets
the generic sentence. -/
theorem claim6_amended_w :
    containsStr (mergeSummaries ["Hello world\n\nBody text here"] ["T"])
      ("## Overview\n\n" ++ "Hello world" ++ "\n\n") = true ∧
    containsStr (mergeSummaries ["abc\ndef"] ["U"])
      "These videos discuss related topics." = true :=
  ⟨((claim6_amended ["Hello world\n\nBody text here"] ["T"]).2.1 "Hello world"
      (by decide)).2.2,
   (claim6_amended ["abc\ndef"] ["U"]).2.2 (by decide)⟩

end CA

